import Mathlib

/-!
Shallow embedding of the ExamBuddy text-analysis core (src/core.py) and proofs
about it.  Python strings are modelled as `List Char` (ASCII fragment: the
regexes in the source are ASCII-only).  Python float arithmetic is modelled
exactly: the summarizer weights all share the denominator `max_f`, so a
sentence score `(sum of counts / max_f) / sqrt n` is represented by the
numerator pair `(A, n)` and score comparisons become
`A^2 * m ≤ B^2 * n` over `ℕ` (valid since all weights are nonnegative);
Python `round` (half to even) of the content coverage is computed on the
exact fraction by `bankersRoundFrac`.
-/

set_option linter.unusedVariables false

abbrev Str := List Char

/-- Python whitespace characters (`str.strip`, `str.split`, regex `\s`). -/
def isPyWS (c : Char) : Bool :=
  c = ' ' || c = '\t' || c = '\n' || c = '\x0b' || c = '\x0c' || c = '\r'

def isAsciiUpperCh (c : Char) : Bool := 'A' ≤ c && c ≤ 'Z'

def isAsciiLowerCh (c : Char) : Bool := 'a' ≤ c && c ≤ 'z'

def isAsciiAlphaCh (c : Char) : Bool := isAsciiUpperCh c || isAsciiLowerCh c

def isAsciiDigitCh (c : Char) : Bool := '0' ≤ c && c ≤ '9'

/-- ASCII lowercasing, as done by `str.lower` on the ASCII fragment. -/
def toLowerCh (c : Char) : Char :=
  if isAsciiUpperCh c then Char.ofNat (c.toNat + 32) else c

def lowerStr (s : Str) : Str := s.map toLowerCh

/-- space or tab, the class `[ \t]` of `clean_text`. -/
def isST (c : Char) : Bool := c = ' ' || c = '\t'

/-- `re.sub(r"[ \t]+", " ", text)`: every maximal run of spaces/tabs becomes
one space.  The flag records whether the previous character was in the run. -/
def collapseSTGo (inRun : Bool) : Str → Str
  | [] => []
  | c :: rest =>
    if isST c then
      if inRun then collapseSTGo true rest
      else ' ' :: collapseSTGo true rest
    else c :: collapseSTGo false rest

def collapseST (s : Str) : Str := collapseSTGo false s

/-- `re.sub(r"\n{3,}", "\n\n", text)`: every maximal run of three or more
newlines becomes exactly two.  `k` counts the newlines of the current run
seen so far; only the first two are emitted. -/
def collapseNLGo (k : ℕ) : Str → Str
  | [] => []
  | c :: rest =>
    if c = '\n' then
      if k < 2 then '\n' :: collapseNLGo (k + 1) rest
      else collapseNLGo (k + 1) rest
    else c :: collapseNLGo 0 rest

def collapseNL (s : Str) : Str := collapseNLGo 0 s

/-- Python `str.strip()`. -/
def pyStrip (s : Str) : Str :=
  ((s.dropWhile isPyWS).reverse.dropWhile isPyWS).reverse

/-- `clean_text` from src/core.py:
NUL bytes become spaces, space/tab runs collapse to one space, runs of three
or more newlines collapse to two, and the ends are stripped. -/
def clean_text (text : Str) : Str :=
  if text = [] then []
  else pyStrip (collapseNL (collapseST (text.map fun c => if c = '\x00' then ' ' else c)))

/-- does the string contain three consecutive newline characters right here? -/
def startsWith3NL : Str → Bool
  | c1 :: c2 :: c3 :: _ => c1 = '\n' && c2 = '\n' && c3 = '\n'
  | _ => false

/-- does the string contain three consecutive newline characters anywhere? -/
def has3NL : Str → Bool
  | [] => false
  | c :: rest => startsWith3NL (c :: rest) || has3NL rest

theorem has3NL_cons_of (c : Char) (l : Str) (h : has3NL (c :: l) = false) :
    has3NL l = false := by
  rw [has3NL] at h
  exact (Bool.or_eq_false_iff.mp h).2

/-- No tab survives `collapseST`. -/
theorem collapseSTGo_no_tab (l : Str) : ∀ b, ∀ c ∈ collapseSTGo b l, c ≠ '\t' := by
  induction l with
  | nil => intro b c hc; simp [collapseSTGo] at hc
  | cons x rest ih =>
    intro b c hc
    by_cases hx : isST x = true
    · cases b with
      | true => simp [collapseSTGo, hx] at hc; exact ih true c hc
      | false =>
        simp only [collapseSTGo, hx, if_true, Bool.false_eq_true, if_false] at hc
        rcases List.mem_cons.mp hc with h | h
        · subst h; decide
        · exact ih true c h
    · simp only [collapseSTGo, hx, Bool.false_eq_true, if_false] at hc
      rcases List.mem_cons.mp hc with h | h
      · subst h
        intro hT; subst hT; simp [isST] at hx
      · exact ih false c h

theorem collapseSTGo_head_true (l : Str) :
    ∀ c, (collapseSTGo true l).head? = some c → isST c = false := by
  induction l with
  | nil => intro c hc; simp [collapseSTGo] at hc
  | cons x rest ih =>
    intro c hc
    by_cases hx : isST x = true
    · simp [collapseSTGo, hx] at hc; exact ih c hc
    · simp only [collapseSTGo, hx, Bool.false_eq_true, if_false] at hc
      simp at hc; subst hc; simpa using hx

/-- After `collapseST` no two adjacent characters are both space/tab. -/
theorem collapseSTGo_chain (l : Str) :
    ∀ b, (collapseSTGo b l).Chain' (fun a c => ¬(isST a = true ∧ isST c = true)) := by
  induction l with
  | nil => intro b; simp [collapseSTGo]
  | cons x rest ih =>
    intro b
    by_cases hx : isST x = true
    · cases b with
      | true => rw [collapseSTGo, if_pos hx]; exact ih true
      | false =>
        rw [collapseSTGo, if_pos hx, if_neg (by simp)]
        rw [List.chain'_cons']
        refine ⟨?_, ih true⟩
        intro y hy
        have := collapseSTGo_head_true rest y hy
        intro hcon; rw [this] at hcon; exact absurd hcon.2 (by simp)
    · rw [collapseSTGo, if_neg hx]
      rw [List.chain'_cons']
      refine ⟨?_, ih false⟩
      intro y hy hcon
      exact absurd hcon.1 (by simpa using hx)

/-- `collapseST` is the identity on strings with no tab and no adjacent
space/tab pair. -/
theorem collapseSTGo_id (l : Str) :
    ∀ b, (∀ c ∈ l, c ≠ '\t') →
      l.Chain' (fun a c => ¬(isST a = true ∧ isST c = true)) →
      (b = true → ∀ c, l.head? = some c → isST c = false) →
      collapseSTGo b l = l := by
  induction l with
  | nil => intro b _ _ _; simp [collapseSTGo]
  | cons x rest ih =>
    intro b hT hch hb
    by_cases hx : isST x = true
    · cases b with
      | true =>
        exact absurd (hb rfl x rfl) (by simp [hx])
      | false =>
        have hxsp : x = ' ' := by
          rcases Bool.or_eq_true_iff.mp hx with h | h
          · exact of_decide_eq_true h
          · exact absurd (of_decide_eq_true h) (hT x (List.mem_cons_self x rest))
        rw [collapseSTGo, if_pos hx, if_neg (by simp), hxsp]
        congr 1
        refine ih true (fun c hc => hT c (List.mem_cons_of_mem x hc))
          (List.chain'_cons'.mp hch).2 ?_
        intro _ c hc
        have := (List.chain'_cons'.mp hch).1 c hc
        by_contra hcon
        exact this ⟨hx, by simpa using hcon⟩
    · rw [collapseSTGo, if_neg hx]
      congr 1
      exact ih false (fun c hc => hT c (List.mem_cons_of_mem x hc))
        (List.chain'_cons'.mp hch).2 (by intro h; exact absurd h (by simp))

theorem collapseNLGo_head_ge2 (l : Str) :
    ∀ k, 2 ≤ k → ∀ c, (collapseNLGo k l).head? = some c → c ≠ '\n' := by
  induction l with
  | nil => intro k _ c hc; simp [collapseNLGo] at hc
  | cons x rest ih =>
    intro k hk c hc
    by_cases hx : x = '\n'
    · subst hx
      rw [collapseNLGo, if_pos rfl, if_neg (by omega)] at hc
      exact ih (k + 1) (by omega) c hc
    · rw [collapseNLGo, if_neg hx] at hc
      simp at hc; subst hc; exact hx

/-- The leading newline run of `collapseNLGo k l` has length at most `2 - k`. -/
theorem collapseNLGo_leadRun (l : Str) :
    ∀ k, k ≤ 2 →
      ((collapseNLGo k l).takeWhile (fun c => c = '\n')).length ≤ 2 - k := by
  induction l with
  | nil => intro k _; simp [collapseNLGo]
  | cons x rest ih =>
    intro k hk
    by_cases hx : x = '\n'
    · subst hx
      rw [collapseNLGo, if_pos rfl]
      by_cases hlt : k < 2
      · rw [if_pos hlt, List.takeWhile_cons, if_pos (by simp)]
        have := ih (k + 1) (by omega)
        simp only [List.length_cons]
        omega
      · rw [if_neg hlt]
        have hk2 : k = 2 := by omega
        subst hk2
        cases hh : (collapseNLGo 3 rest).takeWhile (fun c => c = '\n') with
        | nil => simp [hh]
        | cons y t =>
          exfalso
          have hy : y = '\n' := by
            have := List.mem_takeWhile_imp (l := collapseNLGo 3 rest)
              (p := fun c => c = '\n') (by rw [hh]; exact List.mem_cons_self y t)
            simpa using this
          have hhead : (collapseNLGo 3 rest).head? = some y := by
            have hpre : (y :: t) <+: collapseNLGo 3 rest := hh ▸ List.takeWhile_prefix _
            rcases hpre with ⟨r, hr⟩
            rw [← hr]; rfl
          exact collapseNLGo_head_ge2 rest 3 (by omega) y hhead hy
    · rw [collapseNLGo, if_neg hx, List.takeWhile_cons, if_neg (by simpa using hx)]
      simp

/-- After `collapseNL` there are never three consecutive newlines. -/
theorem collapseNLGo_no3 (l : Str) : ∀ k, has3NL (collapseNLGo k l) = false := by
  induction l with
  | nil => intro k; simp [collapseNLGo, has3NL]
  | cons x rest ih =>
    intro k
    by_cases hx : x = '\n'
    · subst hx
      rw [collapseNLGo, if_pos rfl]
      by_cases hlt : k < 2
      · rw [if_pos hlt, has3NL, ih (k + 1), Bool.or_false]
        cases hout : collapseNLGo (k + 1) rest with
        | nil => rfl
        | cons y t =>
          cases t with
          | nil =>
            by_cases hy : y = '\n' <;> simp [startsWith3NL, hy]
          | cons z t2 =>
            by_cases hy : y = '\n'
            · by_cases hz : z = '\n'
              · exfalso
                have := collapseNLGo_leadRun rest (k + 1) (by omega)
                rw [hout, hy, hz] at this
                rw [List.takeWhile_cons, if_pos (by simp),
                  List.takeWhile_cons, if_pos (by simp)] at this
                simp only [List.length_cons] at this
                omega
              · subst hy; simp [startsWith3NL, hz]
            · simp [startsWith3NL, hy]
      · rw [if_neg hlt]; exact ih (k + 1)
    · rw [collapseNLGo, if_neg hx, has3NL, ih 0, Bool.or_false]
      cases h0 : collapseNLGo 0 rest with
      | nil => simp [startsWith3NL, hx]
      | cons y t =>
        cases t with
        | nil => simp [startsWith3NL, hx]
        | cons z t2 => simp [startsWith3NL, hx]

theorem dropWhile_self_idem (p : Char → Bool) (l : Str) :
    List.dropWhile p (List.dropWhile p l) = List.dropWhile p l := by
  induction l with
  | nil => simp
  | cons c rest ih =>
    by_cases hc : p c = true
    · rw [List.dropWhile_cons_of_pos hc]; exact ih
    · rw [List.dropWhile_cons_of_neg hc, List.dropWhile_cons_of_neg hc]

theorem dropWhile_append_last (p : Char → Bool) (c : Char) (hc : p c = false)
    (l : Str) : List.dropWhile p (l ++ [c]) = List.dropWhile p l ++ [c] := by
  induction l with
  | nil => simp [List.dropWhile_cons, hc]
  | cons x rest ih =>
    by_cases hx : p x = true
    · rw [List.cons_append, List.dropWhile_cons_of_pos hx,
        List.dropWhile_cons_of_pos hx]
      exact ih
    · rw [List.cons_append, List.dropWhile_cons_of_neg hx,
        List.dropWhile_cons_of_neg hx, List.cons_append]

theorem pyStrip_idem (l : Str) : pyStrip (pyStrip l) = pyStrip l := by
  unfold pyStrip
  cases h : List.dropWhile isPyWS l with
  | nil => simp
  | cons c t =>
    have hc : isPyWS c = false := by
      have hhd := List.head?_dropWhile_not isPyWS l
      rw [h] at hhd
      simpa using hhd
    -- inner string: s = reverse (dropWhile ws (reverse (c :: t)))
    have hrev : (c :: t).reverse = t.reverse ++ [c] := by simp
    rw [hrev, dropWhile_append_last isPyWS c hc]
    rw [List.reverse_append]
    simp only [List.reverse_cons, List.reverse_nil, List.nil_append,
      List.singleton_append]
    rw [List.dropWhile_cons_of_neg (by simp [hc])]
    rw [List.reverse_cons, dropWhile_append_last isPyWS c hc,
      List.reverse_append]
    simp only [List.reverse_cons, List.reverse_nil, List.nil_append,
      List.singleton_append]
    rw [List.reverse_reverse, dropWhile_self_idem]

theorem pyStrip_middle (l : Str) : pyStrip l <:+: l := by
  unfold pyStrip
  have h1 : List.dropWhile isPyWS l <:+ l := List.dropWhile_suffix isPyWS
  have h2 : List.dropWhile isPyWS (List.dropWhile isPyWS l).reverse <:+
      (List.dropWhile isPyWS l).reverse := List.dropWhile_suffix isPyWS
  have h3 : (List.dropWhile isPyWS (List.dropWhile isPyWS l).reverse).reverse <+:
      List.dropWhile isPyWS l := by
    rw [← List.reverse_reverse (List.dropWhile isPyWS l)] at h2
    exact (List.reverse_suffix).mp (by simpa using h2)
  exact h3.isInfix.trans h1.isInfix

theorem has3NL_true_iff (l : Str) :
    has3NL l = true ↔ ['\n', '\n', '\n'] <:+: l := by
  induction l with
  | nil => simp [has3NL]
  | cons c rest ih =>
    rw [has3NL, Bool.or_eq_true]
    constructor
    · rintro (h | h)
      · rcases rest with _ | ⟨b, _ | ⟨d, t⟩⟩
        · simp [startsWith3NL] at h
        · simp [startsWith3NL] at h
        · simp only [startsWith3NL, Bool.and_eq_true, decide_eq_true_eq] at h
          obtain ⟨⟨h1, h2⟩, h3⟩ := h
          subst h1; subst h2; subst h3
          exact ⟨[], t, rfl⟩
      · exact List.infix_cons (ih.mp h)
    · rintro ⟨s, t, hst⟩
      cases s with
      | nil =>
        left
        simp only [List.nil_append, List.cons_append] at hst
        obtain ⟨h1, h2⟩ := List.cons.inj hst
        subst h1
        rw [← h2]
        simp [startsWith3NL]
      | cons a s2 =>
        right
        apply ih.mpr
        refine ⟨s2, t, ?_⟩
        have : a :: (s2 ++ ['\n', '\n', '\n'] ++ t) = c :: rest := by
          simpa using hst
        exact (List.cons.inj this).2

theorem has3NL_append_right (xs ys : Str) (h : has3NL (xs ++ ys) = false) :
    has3NL ys = false := by
  by_contra hcon
  have h1 : has3NL ys = true := by
    cases hy : has3NL ys
    · exact absurd hy hcon
    · rfl
  have h2 := (has3NL_true_iff ys).mp h1
  have h3 : ['\n', '\n', '\n'] <:+: xs ++ ys :=
    h2.trans (List.suffix_append xs ys).isInfix
  rw [(has3NL_true_iff _).mpr h3] at h
  exact absurd h (by simp)

theorem has3NL_infix_false (m l : Str) (hml : m <:+: l)
    (h : has3NL l = false) : has3NL m = false := by
  by_contra hcon
  have h1 : has3NL m = true := by
    cases hy : has3NL m
    · exact absurd hy hcon
    · rfl
  have h2 := ((has3NL_true_iff m).mp h1).trans hml
  rw [(has3NL_true_iff _).mpr h2] at h
  exact absurd h (by simp)

/-- `collapseNL` is the identity when, even after `k` pending newlines,
there is no run of three newlines. -/
theorem collapseNLGo_id (l : Str) :
    ∀ k, has3NL (List.replicate k '\n' ++ l) = false → collapseNLGo k l = l := by
  induction l with
  | nil => intro k _; simp [collapseNLGo]
  | cons x rest ih =>
    intro k hk
    by_cases hx : x = '\n'
    · subst hx
      have hklt : k < 2 := by
        by_contra hge
        obtain ⟨m, rfl⟩ : ∃ m, k = m + 2 := ⟨k - 2, by omega⟩
        have hsh : List.replicate (m + 2) '\n' ++ '\n' :: rest =
            '\n' :: '\n' :: (List.replicate m '\n' ++ '\n' :: rest) := by
          rw [List.replicate_succ, List.replicate_succ]
          simp
        have htail : ∃ t, List.replicate m '\n' ++ '\n' :: rest = '\n' :: t := by
          cases m with
          | zero => exact ⟨rest, by simp⟩
          | succ m2 =>
            exact ⟨List.replicate m2 '\n' ++ '\n' :: rest,
              by rw [List.replicate_succ]; simp⟩
        obtain ⟨t, ht⟩ := htail
        have h3 : has3NL (List.replicate (m + 2) '\n' ++ '\n' :: rest) = true := by
          apply (has3NL_true_iff _).mpr
          exact ⟨[], t, by rw [hsh, ht]; simp⟩
        rw [h3] at hk
        exact absurd hk (by simp)
      rw [collapseNLGo, if_pos rfl, if_pos hklt]
      congr 1
      apply ih (k + 1)
      rw [List.replicate_succ', List.append_assoc] at *
      simpa using hk
    · rw [collapseNLGo, if_neg hx]
      congr 1
      apply ih 0
      simp only [List.replicate, List.nil_append]
      have := has3NL_append_right (List.replicate k '\n') (x :: rest) hk
      exact has3NL_cons_of x rest this

theorem collapseSTGo_mem (l : Str) :
    ∀ b, ∀ c ∈ collapseSTGo b l, c ∈ l ∨ c = ' ' := by
  induction l with
  | nil => intro b c hc; simp [collapseSTGo] at hc
  | cons x rest ih =>
    intro b c hc
    by_cases hx : isST x = true
    · cases b with
      | true =>
        simp only [collapseSTGo, hx, if_true] at hc
        rcases ih true c hc with h | h
        · exact Or.inl (List.mem_cons_of_mem x h)
        · exact Or.inr h
      | false =>
        simp only [collapseSTGo, hx, if_true, Bool.false_eq_true, if_false] at hc
        rcases List.mem_cons.mp hc with h | h
        · exact Or.inr h
        · rcases ih true c h with h2 | h2
          · exact Or.inl (List.mem_cons_of_mem x h2)
          · exact Or.inr h2
    · simp only [collapseSTGo, hx, Bool.false_eq_true, if_false] at hc
      rcases List.mem_cons.mp hc with h | h
      · exact Or.inl (h ▸ List.mem_cons_self x rest)
      · rcases ih false c h with h2 | h2
        · exact Or.inl (List.mem_cons_of_mem x h2)
        · exact Or.inr h2

theorem collapseNLGo_mem (l : Str) :
    ∀ k, ∀ c ∈ collapseNLGo k l, c ∈ l := by
  induction l with
  | nil => intro k c hc; simp [collapseNLGo] at hc
  | cons x rest ih =>
    intro k c hc
    by_cases hx : x = '\n'
    · subst hx
      rw [collapseNLGo, if_pos rfl] at hc
      by_cases hk : k < 2
      · rw [if_pos hk] at hc
        rcases List.mem_cons.mp hc with h | h
        · exact h ▸ List.mem_cons_self _ rest
        · exact List.mem_cons_of_mem _ (ih (k + 1) c h)
      · rw [if_neg hk] at hc
        exact List.mem_cons_of_mem _ (ih (k + 1) c hc)
    · rw [collapseNLGo, if_neg hx] at hc
      rcases List.mem_cons.mp hc with h | h
      · exact h ▸ List.mem_cons_self x rest
      · exact List.mem_cons_of_mem _ (ih 0 c h)

theorem pyStrip_mem (l : Str) : ∀ c ∈ pyStrip l, c ∈ l := by
  intro c hc
  exact (pyStrip_middle l).subset hc

theorem collapseNLGo_head0 (l : Str) : (collapseNLGo 0 l).head? = l.head? := by
  cases l with
  | nil => rfl
  | cons x rest =>
    by_cases hx : x = '\n'
    · subst hx
      rw [collapseNLGo, if_pos rfl, if_pos (by omega)]
      rfl
    · rw [collapseNLGo, if_neg hx]
      rfl

/-- `collapseNL` preserves the absence of adjacent space/tab pairs: it never
removes all the newlines separating two characters. -/
theorem collapseNLGo_chain (l : Str)
    (hch : l.Chain' (fun a c => ¬(isST a = true ∧ isST c = true))) :
    ∀ k, (collapseNLGo k l).Chain' (fun a c => ¬(isST a = true ∧ isST c = true)) := by
  induction l with
  | nil => intro k; simp [collapseNLGo]
  | cons x rest ih =>
    intro k
    have hch2 := (List.chain'_cons'.mp hch).2
    by_cases hx : x = '\n'
    · subst hx
      rw [collapseNLGo, if_pos rfl]
      by_cases hk : k < 2
      · rw [if_pos hk]
        rw [List.chain'_cons']
        refine ⟨?_, ih hch2 (k + 1)⟩
        intro y hy hcon
        exact absurd hcon.1 (by simp [isST])
      · rw [if_neg hk]
        exact ih hch2 (k + 1)
    · rw [collapseNLGo, if_neg hx]
      rw [List.chain'_cons']
      refine ⟨?_, ih hch2 0⟩
      intro y hy hcon
      rw [collapseNLGo_head0 rest] at hy
      by_cases hynl : y = '\n'
      · subst hynl; exact absurd hcon.2 (by simp [isST])
      · exact (List.chain'_cons'.mp hch).1 y hy hcon

theorem mapNul_id (l : Str) (h : ∀ c ∈ l, c ≠ '\x00') :
    (l.map fun c => if c = '\x00' then ' ' else c) = l := by
  induction l with
  | nil => rfl
  | cons x rest ih =>
    rw [List.map_cons, if_neg (h x (List.mem_cons_self x rest)),
      ih (fun c hc => h c (List.mem_cons_of_mem x hc))]

/-- All characters of `clean_text text` that are special to the pipeline:
no NUL, no tab. -/
theorem clean_text_no_nul_tab (text : Str) :
    ∀ c ∈ clean_text text, c ≠ '\x00' ∧ c ≠ '\t' := by
  intro c hc
  rw [clean_text] at hc
  by_cases he : text = []
  · rw [if_pos he] at hc; simp at hc
  · rw [if_neg he] at hc
    have h1 := pyStrip_mem _ c hc
    have h2 := collapseNLGo_mem _ 0 c h1
    constructor
    · rcases collapseSTGo_mem _ false c h2 with h3 | h3
      · rcases List.mem_map.mp h3 with ⟨a, _, ha⟩
        by_cases hanul : a = '\x00'
        · rw [if_pos hanul] at ha; intro hcon; rw [← ha] at hcon; exact absurd hcon (by decide)
        · rw [if_neg hanul] at ha; exact ha ▸ hanul
      · intro hcon; rw [hcon] at h3; exact absurd h3 (by decide)
    · exact collapseSTGo_no_tab _ false c h2

theorem clean_text_chain (text : Str) :
    (clean_text text).Chain' (fun a c => ¬(isST a = true ∧ isST c = true)) := by
  rw [clean_text]
  by_cases he : text = []
  · rw [if_pos he]; simp
  · rw [if_neg he]
    exact List.Chain'.infix (collapseNLGo_chain _ (collapseSTGo_chain _ false) 0) (pyStrip_middle _)

theorem clean_text_no3NL (text : Str) : has3NL (clean_text text) = false := by
  rw [clean_text]
  by_cases he : text = []
  · rw [if_pos he]; rfl
  · rw [if_neg he]
    exact has3NL_infix_false _ _ (pyStrip_middle _) (collapseNLGo_no3 _ 0)

theorem clean_text_strip_fix (text : Str) : pyStrip (clean_text text) = clean_text text := by
  rw [clean_text]
  by_cases he : text = []
  · rw [if_pos he]; rfl
  · rw [if_neg he]; exact pyStrip_idem _

/-- The text normalizer is idempotent. -/
theorem clean_text_idem (text : Str) : clean_text (clean_text text) = clean_text text := by
  by_cases hy : clean_text text = []
  · rw [hy]; rfl
  · conv_lhs => rw [clean_text]
    rw [if_neg hy]
    rw [mapNul_id _ (fun c hc => (clean_text_no_nul_tab text c hc).1)]
    rw [show collapseST (clean_text text) = clean_text text from
      collapseSTGo_id _ false (fun c hc => (clean_text_no_nul_tab text c hc).2)
        (clean_text_chain text) (by intro h; exact absurd h (by simp))]
    rw [show collapseNL (clean_text text) = clean_text text from
      collapseNLGo_id _ 0 (by simpa using clean_text_no3NL text)]
    exact clean_text_strip_fix text

/-- C10: the text normalizer `clean_text` is idempotent
(`clean_text (clean_text x) = clean_text x` for every input), its output never
contains a NUL byte and never contains three or more consecutive newline
characters, and empty input yields the empty string. -/
theorem C10_clean_text_normalizer :
    (∀ x : Str, clean_text (clean_text x) = clean_text x) ∧
    (∀ x : Str, ∀ c ∈ clean_text x, c ≠ '\x00') ∧
    (∀ x : Str, has3NL (clean_text x) = false) ∧
    clean_text [] = [] :=
  ⟨clean_text_idem, fun x c hc => (clean_text_no_nul_tab x c hc).1,
    clean_text_no3NL, rfl⟩

/-- prepend a character to the first element of a list of strings
(used to build split results front to back). -/
def consHead (c : Char) : List Str → List Str
  | [] => [[c]]
  | h :: t => (c :: h) :: t

/-- Python `str.split()` (split on whitespace runs, dropping empty parts). -/
def splitWS : Str → List Str
  | [] => []
  | c :: rest =>
    if isPyWS c then splitWS rest
    else match splitWS rest with
      | [] => [[c]]
      | h :: t =>
        match rest with
        | [] => [[c]]
        | r :: _ => if isPyWS r then [c] :: h :: t else (c :: h) :: t

/-- line-break characters recognized by Python `str.splitlines` (ASCII part). -/
def isLineBreak (c : Char) : Bool :=
  c = '\n' || c = '\r' || c = '\x0b' || c = '\x0c'

/-- Python `str.splitlines()` (ASCII line breaks; `\r\n` counts as one break). -/
def splitLines : Str → List Str
  | [] => []
  | '\r' :: '\n' :: rest => [] :: splitLines rest
  | c :: rest => if isLineBreak c then [] :: splitLines rest else consHead c (splitLines rest)

/-- `.`, `!` or `?`, the class of the sentence-count regex `[.!?]+`. -/
def isSentPunct (c : Char) : Bool := c = '.' || c = '!' || c = '?'

/-- `re.split(r"[.!?]+", s)` up to empty parts (which the callers discard):
splitting at every single punctuation character yields the same nonempty
parts as splitting at maximal runs. -/
def splitPunct : Str → List Str
  | [] => [[]]
  | c :: rest => if isSentPunct c then [] :: splitPunct rest else consHead c (splitPunct rest)

/-- The sentence splitter state machine for
`re.split(r"(?<=[\.\!\?])\s+(?=[A-Z0-9])", text)`: a maximal whitespace run
preceded by `.`/`!`/`?` and followed by an uppercase letter or digit is a
split point.  `cur` is the reversed current part, `pend` the reversed
pending whitespace run, `afterPunct` whether the character before the
pending run (or before the cursor when no run is pending) is `.`/`!`/`?`. -/
def sentGo (cur pend : Str) (afterPunct : Bool) : Str → List Str
  | [] => [(pend ++ cur).reverse]
  | c :: rest =>
    if isPyWS c then sentGo cur (c :: pend) afterPunct rest
    else if pend ≠ [] && afterPunct && (isAsciiUpperCh c || isAsciiDigitCh c) then
      cur.reverse :: sentGo [c] [] (isSentPunct c) rest
    else sentGo (c :: (pend ++ cur)) [] (isSentPunct c) rest

/-- `split_sentences` from src/core.py. -/
def split_sentences (text : Str) : List Str :=
  let t := clean_text text
  if t = [] then []
  else ((sentGo [] [] false t).map pyStrip).filter (fun p => p ≠ [])

/-- character class `[a-zA-Z\-']` of the token regex. -/
def isTokenCh (c : Char) : Bool := isAsciiAlphaCh c || c = '-' || c = '\''

/-- one accumulated token candidate, kept only when the regex
`[a-zA-Z][a-zA-Z\-']{1,}` matched at least two characters. -/
def emitTok (cur : Str) : List Str :=
  if 2 ≤ cur.length then [cur.reverse] else []

/-- scanner for `re.findall(r"[a-zA-Z][a-zA-Z\-']{1,}", text)`:
a match starts at a letter and extends greedily over letters, hyphens and
apostrophes. -/
def tokScan (cur : Str) : Str → List Str
  | [] => emitTok cur
  | c :: rest =>
    if cur ≠ [] then
      if isTokenCh c then tokScan (c :: cur) rest
      else emitTok cur ++ tokScan [] rest
    else
      if isAsciiAlphaCh c then tokScan [c] rest else tokScan [] rest

/-- the STOPWORDS set of src/core.py. -/
def STOPWORDS : List Str :=
  ["a", "an", "the", "and", "or", "but", "if", "then", "so", "because", "as",
   "at", "by", "for", "from", "into", "on", "onto", "in", "out", "up", "down",
   "over", "under", "again", "further",
   "to", "of", "with", "without", "within", "between", "among", "during",
   "before", "after", "above", "below", "is", "are", "was", "were", "be",
   "been", "being",
   "this", "that", "these", "those", "it", "its", "they", "them", "their",
   "you", "your", "we", "our", "i", "me", "my", "he", "she", "his", "her",
   "can", "could", "should", "would", "may", "might", "will", "just", "not",
   "no", "yes"].map String.toList

/-- `tokenize` from src/core.py: lowercase, extract word tokens, drop
stopwords and tokens of length at most 2. -/
def tokenize (text : Str) : List Str :=
  (tokScan [] (lowerStr text)).filter
    (fun t => !STOPWORDS.contains t && 2 < t.length)

/-- Python `sub in s` (contiguous substring test). -/
def strContains (s pat : Str) : Bool :=
  (List.range (s.length + 1)).any (fun p => pat.isPrefixOf (s.drop p))

/-- word character `[A-Za-z0-9_]` for the regex `\b` boundary. -/
def isWordCh (c : Char) : Bool := isAsciiAlphaCh c || isAsciiDigitCh c || c = '_'

def wordCharAt (s : Str) (p : ℕ) : Bool :=
  match s[p]? with
  | some c => isWordCh c
  | none => false

/-- regex `\b`: exactly one side of position `p` is a word character. -/
def boundaryAt (s : Str) (p : ℕ) : Bool :=
  (if p = 0 then false else wordCharAt s (p - 1)) != wordCharAt s p

/-- `re.search(rf"\b{re.escape(kw)}\b", s)` succeeds at position `p`. -/
def matchWordAt (kw s : Str) (p : ℕ) : Bool :=
  boundaryAt s p && kw.isPrefixOf (s.drop p) && boundaryAt s (p + kw.length)

/-- whole-word search of the (escaped, hence literal) keyword in `s`. -/
def wholeWordSearch (kw s : Str) : Bool :=
  (List.range (s.length + 1)).any (matchWordAt kw s)

/-- characters kept by `_normalize`: the class `[a-z0-9\s\-']`
(after lowercasing). -/
def isNormKeep (c : Char) : Bool :=
  isAsciiLowerCh c || isAsciiDigitCh c || isPyWS c || c = '-' || c = '\''

/-- `re.sub(r"\s+", " ", s)`: whitespace runs become one space. -/
def collapseWSGo (inRun : Bool) : Str → Str
  | [] => []
  | c :: rest =>
    if isPyWS c then
      if inRun then collapseWSGo true rest
      else ' ' :: collapseWSGo true rest
    else c :: collapseWSGo false rest

/-- `_normalize` from src/core.py: lowercase, replace every character
outside `[a-z0-9\s\-']` by a space, collapse whitespace, strip. -/
def pyNormalize (s : Str) : Str :=
  pyStrip (collapseWSGo false ((lowerStr s).map fun c => if isNormKeep c then c else ' '))

/-- Python `round (n / d)` for a nonnegative exact fraction (`d > 0`):
round half to even. -/
def bankersRoundFrac (n d : ℕ) : ℕ :=
  if 2 * (n % d) < d then n / d
  else if d < 2 * (n % d) then n / d + 1
  else if n / d % 2 = 0 then n / d else n / d + 1

structure MarkingResult where
  score : ℤ
  band : Str
  content : ℤ
  clarity : ℤ
  examples : ℤ
  found_keywords : List Str
  missing_keywords : List Str
  feedback : List Str
  deriving DecidableEq, Repr

/-- the expected keywords that match the normalized answer as whole words. -/
def foundKeywords (ans : Str) (expected : List Str) : List Str :=
  expected.filter (fun kw => wholeWordSearch kw ans)

/-- content sub-score of `mark_answer`:
`min(60, int(round(60 * len(found) / max(1, min(10, len(expected))))))`,
the rounding taken on the exact fraction. -/
def contentScore (ans : Str) (expected : List Str) : ℤ :=
  min 60 ((bankersRoundFrac (60 * (foundKeywords ans expected).length)
    (max 1 (min 10 expected.length)) : ℕ) : ℤ)

def connectives : List Str :=
  ["because", "therefore", "so", "but", "however"].map String.toList

/-- number of nonempty `[.!?]+`-separated pieces of the stripped raw answer. -/
def countSentences (answer : Str) : ℕ :=
  (((splitPunct (pyStrip answer)).map pyStrip).filter (fun s => s ≠ [])).length

/-- clarity sub-score of `mark_answer` (word count, sentence count and
connective-word heuristics, capped at 25). -/
def clarityScore (answer ans : Str) : ℤ :=
  let wc := (splitWS ans).length
  let structScore : ℤ :=
    (if 20 ≤ wc then 10 else 0) + (if 50 ≤ wc then 5 else 0) +
    (if 2 ≤ countSentences answer then 5 else 0) +
    (if connectives.any (fun w => strContains ans w) then 5 else 0)
  min 25 structScore

def exampleCues : List Str :=
  ["for example", "e.g", "such as", "scenario", "case", "in practice",
   "real", "in court"].map String.toList

/-- example sub-score of `mark_answer`: 15 for an example cue, else 8 for at
least 45 words, else 0. -/
def exampleScore (ans : Str) : ℤ :=
  if exampleCues.any (fun cue => strContains ans cue) then 15
  else if 45 ≤ (splitWS ans).length then 8 else 0

def bandOf (total : ℤ) : Str :=
  if 80 ≤ total then "Excellent".toList
  else if 65 ≤ total then "Good".toList
  else if 45 ≤ total then "Fair".toList
  else "Needs work".toList

def fbEmpty : Str := "Write something first — even 2–3 sentences is enough to start.".toList

def fbContent : Str := "Add more key ideas/terms from the notes (use the keyword list below).".toList

def fbClarity : Str := "Make it clearer: 2–4 short sentences, each with one point.".toList

def fbExample : Str := "Add a quick example or ‘in practice’ sentence to boost marks.".toList

def fbNice : Str := "Nice — to improve, add 1 extra keyword and one more connecting sentence.".toList

/-- the clamped total of `mark_answer`:
`min(100, content_score + clarity_score + example_score)`. -/
def totalScore (answer : Str) (expected : List Str) : ℤ :=
  min 100 (contentScore (pyNormalize answer) expected +
    clarityScore answer (pyNormalize answer) + exampleScore (pyNormalize answer))

/-- the feedback bullets of `mark_answer`, triggered by sub-score
thresholds. -/
def feedbackOf (c cl e : ℤ) : List Str :=
  (if c < 35 then [fbContent] else []) ++
  (if cl < 15 then [fbClarity] else []) ++
  (if e < 8 then [fbExample] else [])

/-- `mark_answer` from src/core.py. -/
def mark_answer (answer : Str) (expected_keywords : List Str) : MarkingResult :=
  if pyNormalize answer = [] then
    { score := 0, band := "Needs work".toList, content := 0, clarity := 0,
      examples := 0, found_keywords := [],
      missing_keywords := expected_keywords.take 8, feedback := [fbEmpty] }
  else
    { score := totalScore answer expected_keywords,
      band := bandOf (totalScore answer expected_keywords),
      content := contentScore (pyNormalize answer) expected_keywords,
      clarity := clarityScore answer (pyNormalize answer),
      examples := exampleScore (pyNormalize answer),
      found_keywords := (foundKeywords (pyNormalize answer) expected_keywords).take 12,
      missing_keywords := ((expected_keywords.take 10).filter
        (fun kw => !(foundKeywords (pyNormalize answer) expected_keywords).contains kw)).take 8,
      feedback :=
        if feedbackOf (contentScore (pyNormalize answer) expected_keywords)
            (clarityScore answer (pyNormalize answer))
            (exampleScore (pyNormalize answer)) = [] then [fbNice]
        else feedbackOf (contentScore (pyNormalize answer) expected_keywords)
          (clarityScore answer (pyNormalize answer))
          (exampleScore (pyNormalize answer)) }

theorem contentScore_bounds (ans : Str) (expected : List Str) :
    0 ≤ contentScore ans expected ∧ contentScore ans expected ≤ 60 := by
  unfold contentScore
  constructor
  · exact le_min (by norm_num) (Int.ofNat_nonneg _)
  · exact min_le_left _ _

theorem clarityScore_bounds (answer ans : Str) :
    0 ≤ clarityScore answer ans ∧ clarityScore answer ans ≤ 25 := by
  unfold clarityScore
  refine ⟨le_min (by norm_num) ?_, min_le_left _ _⟩
  split_ifs <;> norm_num

theorem exampleScore_bounds (ans : Str) :
    0 ≤ exampleScore ans ∧ exampleScore ans ≤ 15 := by
  unfold exampleScore
  split_ifs <;> norm_num

/-- C1: for every answer string and every expected-keyword list, the
`MarkingResult` of `mark_answer` satisfies
`score = min 100 (content + clarity + examples)`; the score lies in
`[0, 100]`; the content sub-score lies in `[0, 60]`, the clarity sub-score
in `[0, 25]` and the examples sub-score in `[0, 15]`; no sub-score is
negative, and the rubric sub-scores sum to at least the score. -/
theorem C1_mark_answer_rubric_invariants (answer : Str) (expected : List Str) :
    (mark_answer answer expected).score =
      min 100 ((mark_answer answer expected).content +
        (mark_answer answer expected).clarity +
        (mark_answer answer expected).examples) ∧
    0 ≤ (mark_answer answer expected).score ∧
    (mark_answer answer expected).score ≤ 100 ∧
    0 ≤ (mark_answer answer expected).content ∧
    (mark_answer answer expected).content ≤ 60 ∧
    0 ≤ (mark_answer answer expected).clarity ∧
    (mark_answer answer expected).clarity ≤ 25 ∧
    0 ≤ (mark_answer answer expected).examples ∧
    (mark_answer answer expected).examples ≤ 15 ∧
    (mark_answer answer expected).score ≤
      (mark_answer answer expected).content +
        (mark_answer answer expected).clarity +
        (mark_answer answer expected).examples := by
  by_cases h : pyNormalize answer = []
  · simp [mark_answer, h]
  · have hc := contentScore_bounds (pyNormalize answer) expected
    have hcl := clarityScore_bounds answer (pyNormalize answer)
    have he := exampleScore_bounds (pyNormalize answer)
    simp only [mark_answer, if_neg h, totalScore]
    refine ⟨trivial, ?_, ?_, hc.1, hc.2, hcl.1, hcl.2, he.1, he.2, ?_⟩ <;> omega

/-- The content formula exactly as the spec words it: coverage is the number
of whole-word keyword matches divided by `min 10 (number of keywords)`, and
the content score is `min 60 (round (60 * coverage))` — the rounding taken
on the exact fraction `60 * matches / min 10 count`. -/
def contentScoreSpec (ansN : Str) (expected : List Str) : ℤ :=
  min 60 ((bankersRoundFrac (60 * (foundKeywords ansN expected).length)
    (min 10 expected.length) : ℕ) : ℤ)

/-- C2: for every answer that does not normalize to the empty string and
every non-empty expected-keyword list, the content sub-score of
`mark_answer` equals `min 60 (round (60 * coverage))` with
`coverage = matches / min 10 (length of the keyword list)` (`round` being
Python round, i.e. half-to-even). -/
theorem C2_content_score_formula (answer : Str) (expected : List Str)
    (h1 : pyNormalize answer ≠ []) (h2 : expected ≠ []) :
    (mark_answer answer expected).content =
      contentScoreSpec (pyNormalize answer) expected := by
  have hn : 1 ≤ min 10 expected.length := by
    have : 0 < expected.length := List.length_pos.mpr h2
    omega
  simp only [mark_answer, if_neg h1, contentScore, contentScoreSpec]
  rw [Nat.max_eq_right hn]

theorem C2_content_score_formula_witness :
    pyNormalize ("Light and water help.".toList) ≠ [] ∧
    (["light", "water", "soil"].map String.toList) ≠ [] ∧
    (mark_answer ("Light and water help.".toList)
        (["light", "water", "soil"].map String.toList)).content =
      contentScoreSpec (pyNormalize ("Light and water help.".toList))
        (["light", "water", "soil"].map String.toList) :=
  ⟨by decide, by decide,
    C2_content_score_formula _ _ (by decide) (by decide)⟩

def ceKw1 : List Str :=
  ["k1", "k2", "k3", "k4", "k5", "k6", "k7", "k8", "k9", "k10"].map String.toList

def ceKw2 : List Str := ceKw1 ++ ["alpha".toList]

/-- C3 counterexample: the keyword lists `ceKw1` and `ceKw2` both have length
at least 10 and agree on their first 10 entries, yet `mark_answer` gives the
answer "alpha" score 0 against the first and score 6 against the second:
the 11th keyword enters the match count of the content coverage. -/
theorem C3_counterexample :
    10 ≤ ceKw1.length ∧ 10 ≤ ceKw2.length ∧ ceKw1.take 10 = ceKw2.take 10 ∧
    (mark_answer ("alpha".toList) ceKw1).score = 0 ∧
    (mark_answer ("alpha".toList) ceKw2).score = 6 ∧
    (mark_answer ("alpha".toList) ceKw1).score ≠
      (mark_answer ("alpha".toList) ceKw2).score := by
  refine ⟨by decide, by decide, by decide, by decide, by decide, by decide⟩

/-- C3 amended: for every answer and every two expected-keyword lists of
length at least 10 that agree on their first 10 entries, `mark_answer`
returns the same score for both lists whenever the two lists have the same
number of keywords matching the normalized answer; keywords beyond the 10th
affect the score only through that match count (the coverage denominator
stays capped at 10). -/
theorem C3_amended_score_independence (answer : Str) (k1 k2 : List Str)
    (h1 : 10 ≤ k1.length) (h2 : 10 ≤ k2.length)
    (h10 : k1.take 10 = k2.take 10)
    (hf : (foundKeywords (pyNormalize answer) k1).length =
      (foundKeywords (pyNormalize answer) k2).length) :
    (mark_answer answer k1).score = (mark_answer answer k2).score := by
  by_cases h : pyNormalize answer = []
  · simp [mark_answer, h]
  · have hd1 : max 1 (min 10 k1.length) = 10 := by omega
    have hd2 : max 1 (min 10 k2.length) = 10 := by omega
    have hcs : contentScore (pyNormalize answer) k1 =
        contentScore (pyNormalize answer) k2 := by
      unfold contentScore
      rw [hf, hd1, hd2]
    simp only [mark_answer, if_neg h, totalScore, hcs]

theorem C3_amended_score_independence_witness :
    10 ≤ ceKw1.length ∧ 10 ≤ (ceKw1 ++ ["beta".toList]).length ∧
    ceKw1.take 10 = (ceKw1 ++ ["beta".toList]).take 10 ∧
    (foundKeywords (pyNormalize ("alpha".toList)) ceKw1).length =
      (foundKeywords (pyNormalize ("alpha".toList)) (ceKw1 ++ ["beta".toList])).length ∧
    (mark_answer ("alpha".toList) ceKw1).score =
      (mark_answer ("alpha".toList) (ceKw1 ++ ["beta".toList])).score :=
  ⟨by decide, by decide, by decide, by decide,
    C3_amended_score_independence _ _ _ (by decide) (by decide) (by decide) (by decide)⟩

/-- The example-score formula exactly as the spec words it. -/
def specExampleCues : List Str :=
  ["for example", "e.g", "such as", "scenario", "case", "in practice",
   "real", "in court"].map String.toList

def exampleScoreSpec (ans : Str) : ℤ :=
  if specExampleCues.any (fun cue => strContains ans cue) then 15
  else if 45 ≤ (splitWS ans).length then 8 else 0

/-- C4: for every answer that does not normalize to the empty string (and
any keyword list), the examples sub-score of `mark_answer` is 15 when the
normalized answer contains one of the example-cue phrases as a substring,
else 8 when its word count is at least 45, else 0. -/
theorem C4_example_score_formula (answer : Str) (kws : List Str)
    (h : pyNormalize answer ≠ []) :
    (mark_answer answer kws).examples = exampleScoreSpec (pyNormalize answer) := by
  simp only [mark_answer, if_neg h, exampleScore, exampleScoreSpec,
    exampleCues, specExampleCues]

theorem C4_example_score_formula_witness :
    pyNormalize ("Such as the tort case here.".toList) ≠ [] ∧
    (mark_answer ("Such as the tort case here.".toList)
        (["tort"].map String.toList)).examples =
      exampleScoreSpec (pyNormalize ("Such as the tort case here.".toList)) :=
  ⟨by decide, C4_example_score_formula _ _ (by decide)⟩

/-- C5: for every expected-keyword list, `mark_answer` on an answer that
normalizes to the empty string returns, totally (the model has no error
path), the fully-populated zero `MarkingResult`: score 0, band "Needs work",
all three rubric sub-scores 0, empty found list, the first 8 expected
keywords as missing, and a non-empty feedback list. -/
theorem C5_empty_answer_result (answer : Str) (kws : List Str)
    (h : pyNormalize answer = []) :
    mark_answer answer kws =
      { score := 0, band := "Needs work".toList, content := 0, clarity := 0,
        examples := 0, found_keywords := [], missing_keywords := kws.take 8,
        feedback := [fbEmpty] } ∧
    (mark_answer answer kws).feedback ≠ [] := by
  constructor
  · simp [mark_answer, h]
  · simp [mark_answer, h]

theorem C5_empty_answer_result_witness :
    pyNormalize ("  \t\n ".toList) = [] ∧
    mark_answer ("  \t\n ".toList) (["law", "tort"].map String.toList) =
      { score := 0, band := "Needs work".toList, content := 0, clarity := 0,
        examples := 0, found_keywords := [],
        missing_keywords := (["law", "tort"].map String.toList).take 8,
        feedback := [fbEmpty] } :=
  ⟨by decide, (C5_empty_answer_result _ _ (by decide)).1⟩

/-- `max(freq.values())`: the largest token count (shared weight denominator). -/
def maxCount (tokens : List Str) : ℕ :=
  (tokens.map (fun w => tokens.count w)).foldr max 0

/-- one scored sentence of `summarize_sentences`.  The Python float score is
`(num / max_f) / sqrt n`; since the denominator `max_f` is shared by all
sentences, the pair `(num, n)` determines all score comparisons exactly. -/
structure SEnt where
  num : ℕ
  n : ℕ
  idx : ℕ
  snt : Str
  deriving DecidableEq, Repr

/-- `sum(weights.get(w, 0.0) for w in stoks)` times the shared denominator:
the sum of the document-wide counts of the sentence tokens. -/
def sumCounts (tokens stoks : List Str) : ℕ :=
  (stoks.map (fun w => tokens.count w)).sum

/-- the scored-sentence list of `summarize_sentences`: sentences with no
tokens are skipped, the others keep their index and text. -/
def buildScored (tokens : List Str) : ℕ → List Str → List SEnt
  | _, [] => []
  | i, s :: ss =>
    (if tokenize s = [] then []
     else [⟨sumCounts tokens (tokenize s), (tokenize s).length, i, s⟩]) ++
    buildScored tokens (i + 1) ss

/-- score of `x` is at least score of `y`:
`(a/sqrt n) ≥ (b/sqrt m) ↔ a^2 * m ≥ b^2 * n` for nonnegative weights.
Used as the (stable) descending sort relation. -/
def scoreGE (x y : SEnt) : Prop := y.num ^ 2 * x.n ≤ x.num ^ 2 * y.n

instance : DecidableRel scoreGE := fun x y => Nat.decLe _ _

def idxLE (x y : SEnt) : Prop := x.idx ≤ y.idx

instance : DecidableRel idxLE := fun x y => Nat.decLe _ _

instance : IsTotal SEnt idxLE := ⟨fun a b => Nat.le_total a.idx b.idx⟩

instance : IsTrans SEnt idxLE := ⟨fun a b c h1 h2 => Nat.le_trans h1 h2⟩

/-- `summarize_sentences` from src/core.py: join, re-split, frequency-weight,
pick the top `max_sentences` by score (stable descending sort, as Python
`sort(reverse=True)`), then re-sort the picked sentences by original index. -/
def summarize_sentences (sentences : List Str) (max_sentences : ℕ) : List Str :=
  let sents := split_sentences (List.intercalate [' '] sentences)
  if sents = [] then []
  else
    let tokens := tokenize (List.intercalate [' '] sentences)
    if tokens = [] then sents.take max_sentences
    else
      ((List.insertionSort idxLE
        ((List.insertionSort scoreGE (buildScored tokens 0 sents)).take
          max_sentences)).map SEnt.snt)

theorem buildScored_mem_facts (tokens : List Str) :
    ∀ (ss : List Str) (i : ℕ), ∀ e ∈ buildScored tokens i ss,
      i ≤ e.idx ∧ ss[e.idx - i]? = some e.snt := by
  intro ss
  induction ss with
  | nil => intro i e he; simp [buildScored] at he
  | cons s rest ih =>
    intro i e he
    rw [buildScored] at he
    rcases List.mem_append.mp he with h | h
    · by_cases hs : tokenize s = []
      · rw [if_pos hs] at h; simp at h
      · rw [if_neg hs] at h
        simp at h
        subst h
        exact ⟨Nat.le_refl i, by simp⟩
    · obtain ⟨hle, hget⟩ := ih (i + 1) e h
      refine ⟨by omega, ?_⟩
      have hidx : e.idx - i = (e.idx - (i + 1)) + 1 := by omega
      rw [hidx, List.getElem?_cons_succ]
      exact hget

theorem buildScored_pairwise (tokens : List Str) :
    ∀ (ss : List Str) (i : ℕ),
      (buildScored tokens i ss).Pairwise (fun a b => a.idx < b.idx) := by
  intro ss
  induction ss with
  | nil => intro i; simp [buildScored]
  | cons s rest ih =>
    intro i
    rw [buildScored]
    by_cases hs : tokenize s = []
    · rw [if_pos hs]; simpa using ih (i + 1)
    · rw [if_neg hs]
      simp only [List.singleton_append, List.pairwise_cons]
      refine ⟨?_, ih (i + 1)⟩
      intro e he
      have := (buildScored_mem_facts tokens rest (i + 1) e he).1
      simpa using by omega

/-- Entries indexed consistently into `sents`, listed with strictly
increasing indices, map to a sublist of `sents`. -/
theorem sublist_of_indexed :
    ∀ (l : List SEnt) (sents : List Str) (off : ℕ),
      l.Pairwise (fun a b => a.idx < b.idx) →
      (∀ e ∈ l, off ≤ e.idx ∧ sents[e.idx - off]? = some e.snt) →
      (l.map SEnt.snt).Sublist sents := by
  intro l
  induction l with
  | nil => intro sents off _ _; simp
  | cons e es ih =>
    intro sents off hpw hmem
    obtain ⟨hoff, hget⟩ := hmem e (List.mem_cons_self e es)
    have hlt : e.idx - off < sents.length := by
      by_contra hge
      rw [List.getElem?_eq_none (by omega)] at hget
      exact absurd hget (by simp)
    have hdec : sents.drop (e.idx - off) =
        e.snt :: sents.drop (e.idx - off + 1) := by
      rw [List.drop_eq_getElem_cons hlt]
      congr 1
      have := List.getElem?_eq_getElem hlt
      rw [hget] at this
      exact (Option.some.inj this).symm
    have hes : (es.map SEnt.snt).Sublist (sents.drop (e.idx - off + 1)) := by
      apply ih _ (e.idx + 1)
      · exact (List.pairwise_cons.mp hpw).2
      · intro x hx
        have hxi : e.idx < x.idx := (List.pairwise_cons.mp hpw).1 x hx
        obtain ⟨_, hxg⟩ := hmem x (List.mem_cons_of_mem e hx)
        refine ⟨by omega, ?_⟩
        rw [List.getElem?_drop]
        have : e.idx - off + 1 + (x.idx - (e.idx + 1)) = x.idx - off := by omega
        rw [this]
        exact hxg
    have h2 : (e.snt :: es.map SEnt.snt).Sublist
        (e.snt :: sents.drop (e.idx - off + 1)) := List.Sublist.cons₂ _ hes
    have h3 : (e.snt :: sents.drop (e.idx - off + 1)).Sublist sents := by
      rw [← hdec]
      exact (List.drop_suffix _ _).sublist
    simpa using h2.trans h3

/-- C7: for every sentence list and every K, the output of
`summarize_sentences` is a subsequence of the re-split input sentence
sequence, in original document order: selection is by descending score but
the selected sentences are emitted in document order, never in score
order. -/
theorem C7_summary_is_ordered_subsequence (sentences : List Str) (k : ℕ) :
    (summarize_sentences sentences k).Sublist
      (split_sentences (List.intercalate [' '] sentences)) := by
  unfold summarize_sentences
  by_cases h1 : split_sentences (List.intercalate [' '] sentences) = []
  · rw [if_pos h1, h1]
  · rw [if_neg h1]
    by_cases h2 : tokenize (List.intercalate [' '] sentences) = []
    · rw [if_pos h2]
      exact List.take_sublist _ _
    · rw [if_neg h2]
      set sents := split_sentences (List.intercalate [' '] sentences) with hs
      set tokens := tokenize (List.intercalate [' '] sentences) with ht
      set scored := buildScored tokens 0 sents with hsc
      set top := (List.insertionSort scoreGE scored).take k with htop
      set final := List.insertionSort idxLE top with hfin
      have hmem : ∀ e ∈ final, e ∈ scored := by
        intro e he
        have h1m : e ∈ top := (List.perm_insertionSort idxLE top).mem_iff.mp he
        have h2m : e ∈ List.insertionSort scoreGE scored :=
          (List.take_sublist _ _).subset h1m
        exact (List.perm_insertionSort scoreGE scored).mem_iff.mp h2m
      have hn0 : (scored.map SEnt.idx).Nodup := by
        have := buildScored_pairwise tokens sents 0
        rw [← hsc] at this
        exact List.pairwise_map.mpr (this.imp (fun h => Nat.ne_of_lt h))
      have hn1 : ((List.insertionSort scoreGE scored).map SEnt.idx).Nodup :=
        (((List.perm_insertionSort scoreGE scored).map SEnt.idx).nodup_iff).mpr hn0
      have hn2 : (top.map SEnt.idx).Nodup := by
        rw [htop, List.map_take]
        exact hn1.sublist (List.take_sublist _ _)
      have hnody : (final.map SEnt.idx).Nodup :=
        (((List.perm_insertionSort idxLE top).map SEnt.idx).nodup_iff).mpr hn2
      have hple : final.Pairwise idxLE := List.sorted_insertionSort idxLE top
      have hpne : final.Pairwise (fun a b => a.idx ≠ b.idx) :=
        List.pairwise_map.mp hnody
      have hplt : final.Pairwise (fun a b => a.idx < b.idx) :=
        (hple.and hpne).imp (fun h => Nat.lt_of_le_of_ne h.1 h.2)
      apply sublist_of_indexed final sents 0 hplt
      intro e he
      have := buildScored_mem_facts tokens sents 0 e (hmem e he)
      exact this

/-- scaling a score numerator by 4 (score comparisons are scale-invariant;
used to compare the code's scoring with the spec's 1.25-boosted scoring,
where a 1.25 boost of `a` is `5 * a` against an unboosted `4 * a`). -/
def scale4 (e : SEnt) : SEnt := ⟨4 * e.num, e.n, e.idx, e.snt⟩

theorem scoreGE_scale4 (x y : SEnt) : scoreGE (scale4 x) (scale4 y) ↔ scoreGE x y := by
  unfold scoreGE scale4
  simp only []
  have e1 : (4 * y.num) ^ 2 * x.n = 16 * (y.num ^ 2 * x.n) := by ring
  have e2 : (4 * x.num) ^ 2 * y.n = 16 * (x.num ^ 2 * y.n) := by ring
  rw [e1, e2]
  exact ⟨fun h => Nat.le_of_mul_le_mul_left h (by norm_num),
    fun h => Nat.mul_le_mul_left 16 h⟩

theorem orderedInsert_map (f : SEnt → SEnt) (r rb : SEnt → SEnt → Prop)
    [DecidableRel r] [DecidableRel rb]
    (hrel : ∀ x y, rb (f x) (f y) ↔ r x y) (a : SEnt) (l : List SEnt) :
    List.orderedInsert rb (f a) (l.map f) = (List.orderedInsert r a l).map f := by
  induction l with
  | nil => rfl
  | cons b t ih =>
    simp only [List.map_cons, List.orderedInsert]
    by_cases h : r a b
    · rw [if_pos ((hrel a b).mpr h), if_pos h, List.map_cons, List.map_cons]
    · rw [if_neg (fun hc => h ((hrel a b).mp hc)), if_neg h, List.map_cons, ih]

theorem insertionSort_map (f : SEnt → SEnt) (r rb : SEnt → SEnt → Prop)
    [DecidableRel r] [DecidableRel rb]
    (hrel : ∀ x y, rb (f x) (f y) ↔ r x y) (l : List SEnt) :
    List.insertionSort rb (l.map f) = (List.insertionSort r l).map f := by
  induction l with
  | nil => rfl
  | cons a t ih =>
    simp only [List.map_cons, List.insertionSort, ih]
    exact orderedInsert_map f r rb hrel a _

/-- The summarizer algorithm as §4.7 of the spec words it, including the
topic boost: if the topic is non-empty and appears as a substring of the
lowercased sentence, the sentence score is multiplied by 1.25 before the
top-K selection.  Multiplying a score `a / (max_f * sqrt n)` by 1.25 is
represented exactly by the numerator factor 5 against a factor 4 for
unboosted sentences. -/
def buildScoredSpec (topic : Str) (tokens : List Str) : ℕ → List Str → List SEnt
  | _, [] => []
  | i, s :: ss =>
    (if tokenize s = [] then []
     else [⟨(if !topic.isEmpty && strContains (lowerStr s) topic then 5 else 4) *
        sumCounts tokens (tokenize s), (tokenize s).length, i, s⟩]) ++
    buildScoredSpec topic tokens (i + 1) ss

/-- The spec's summarizer (§4.7): identical to `summarize_sentences` except
that it takes a topic and applies the 1.25 boost of `buildScoredSpec`. -/
def summarize_spec (topic : Str) (sentences : List Str) (max_sentences : ℕ) : List Str :=
  let sents := split_sentences (List.intercalate [' '] sentences)
  if sents = [] then []
  else
    let tokens := tokenize (List.intercalate [' '] sentences)
    if tokens = [] then sents.take max_sentences
    else
      ((List.insertionSort idxLE
        ((List.insertionSort scoreGE (buildScoredSpec topic tokens 0 sents)).take
          max_sentences)).map SEnt.snt)

theorem buildScoredSpec_empty_topic (tokens : List Str) :
    ∀ (ss : List Str) (i : ℕ),
      buildScoredSpec [] tokens i ss = (buildScored tokens i ss).map scale4 := by
  intro ss
  induction ss with
  | nil => intro i; rfl
  | cons s rest ih =>
    intro i
    rw [buildScoredSpec, buildScored, List.map_append, ih (i + 1)]
    congr 1
    by_cases hs : tokenize s = []
    · rw [if_pos hs, if_pos hs]; rfl
    · rw [if_neg hs, if_neg hs]
      simp [scale4]

def c6Sentences : List Str := ["Delta epsilon.", "Delta zeta eta theta."].map String.toList

/-- C6 counterexample: `summarize_sentences` takes no topic and applies no
boost.  On `c6Sentences` with K = 1 the code picks the second sentence,
while the spec's algorithm with topic "epsilon" (non-empty, and a substring
of the lowercased first sentence) boosts the first sentence's score by 1.25
and picks it instead: the code's output differs from the spec's. -/
theorem C6_counterexample :
    summarize_sentences c6Sentences 1 = ["Delta zeta eta theta.".toList] ∧
    summarize_spec ("epsilon".toList) c6Sentences 1 = ["Delta epsilon.".toList] ∧
    ("epsilon".toList ≠ []) ∧
    strContains (lowerStr ("Delta epsilon.".toList)) ("epsilon".toList) = true ∧
    summarize_sentences c6Sentences 1 ≠ summarize_spec ("epsilon".toList) c6Sentences 1 := by
  refine ⟨by decide, by decide, by decide, by decide, by decide⟩

/-- C6 amended: the code's `summarize_sentences` has no topic parameter and
never applies a 1.25 boost; it coincides exactly with the spec's summarizer
algorithm specialized to the empty topic (for which no boost ever fires). -/
theorem C6_amended_no_topic_boost (sentences : List Str) (k : ℕ) :
    summarize_sentences sentences k = summarize_spec [] sentences k := by
  unfold summarize_sentences summarize_spec
  by_cases h1 : split_sentences (List.intercalate [' '] sentences) = []
  · rw [if_pos h1, if_pos h1]
  · rw [if_neg h1, if_neg h1]
    by_cases h2 : tokenize (List.intercalate [' '] sentences) = []
    · rw [if_pos h2, if_pos h2]
    · rw [if_neg h2, if_neg h2]
      rw [buildScoredSpec_empty_topic]
      rw [insertionSort_map scale4 scoreGE scoreGE scoreGE_scale4]
      rw [← List.map_take]
      rw [insertionSort_map scale4 idxLE idxLE (fun x y => Iff.rfl)]
      rw [List.map_map]
      rfl

/-- the first 20 non-blank, stripped lines of a page's cleaned text. -/
def pageLines (txt : Str) : List Str :=
  (((splitLines (clean_text txt)).map pyStrip).filter (fun l => l ≠ [])).take 20

/-- Python `str.isupper()` on the ASCII fragment: at least one cased
character, and no lowercase one. -/
def pyIsUpper (ln : Str) : Bool := ln.any isAsciiUpperCh && !ln.any isAsciiLowerCh

/-- `sum(1 for w in ln.split() if w[:1].isupper())`. -/
def capsCount (ln : Str) : ℕ :=
  ((splitWS ln).filter (fun w =>
    match w with
    | c :: _ => isAsciiUpperCh c
    | [] => false)).length

/-- the per-line candidate test of `detect_headings` (src/core.py lines
59-66): length at most 60, has a letter, not purely numeric, and (fully
uppercase of length at least 6, or at least `max 2 (words/2)` capitalized
words, or one of the two hardcoded exception lines). -/
def isHeadingCandidate (ln : Str) : Bool :=
  ln.length ≤ 60 &&
  ln.any isAsciiAlphaCh &&
  !(!ln.isEmpty && ln.all isAsciiDigitCh) &&
  ((pyIsUpper ln && 6 ≤ ln.length) ||
   (max 2 ((splitWS ln).length / 2) ≤ capsCount ln) ||
   (ln = "ADME".toList || ln = "Forensic Toxicology".toList))

/-- one step of the first phase of `detect_headings`: append the line as a
heading unless its (lowercased text, page) key was already seen. -/
def hdStep (pg : ℕ) (st : List (Str × ℕ) × List (Str × ℕ)) (ln : Str) :
    List (Str × ℕ) × List (Str × ℕ) :=
  if isHeadingCandidate ln && !(decide ((lowerStr ln, pg) ∈ st.2)) then
    (st.1 ++ [(ln, pg)], st.2 ++ [(lowerStr ln, pg)])
  else st

def hdPhase1 (pages : List (ℕ × Str)) : List (Str × ℕ) :=
  (pages.foldl (fun st p => (pageLines p.2).foldl (hdStep p.1) st) ([], [])).1

def pageLE (a b : Str × ℕ) : Prop := a.2 ≤ b.2

instance : DecidableRel pageLE := fun a b => Nat.decLe _ _

/-- the second phase of `detect_headings`: case-insensitive dedup of the
page-sorted headings, first occurrence kept. -/
def hdDedup (seen : List Str) : List (Str × ℕ) → List (Str × ℕ)
  | [] => []
  | h :: t =>
    if decide (lowerStr h.1 ∈ seen) then hdDedup seen t
    else h :: hdDedup (lowerStr h.1 :: seen) t

/-- `detect_headings` from src/core.py, on pages `(page number, text)`;
headings are `(heading text, page number)` pairs. -/
def detect_headings (pages : List (ℕ × Str)) : List (Str × ℕ) :=
  (hdDedup [] (List.insertionSort pageLE (hdPhase1 pages))).take 25

/-- The heading-candidate test exactly as the spec words it: length at most
60, contains a letter, not purely numeric, and (fully uppercase with length
at least 6, or at least half of its words capitalized). -/
def specHeadingCandidate (ln : Str) : Bool :=
  ln.length ≤ 60 &&
  ln.any isAsciiAlphaCh &&
  !(!ln.isEmpty && ln.all isAsciiDigitCh) &&
  ((pyIsUpper ln && 6 ≤ ln.length) ||
   ((splitWS ln).length ≤ 2 * capsCount ln))

/-- C8 counterexample: the single-word capitalized line "Hello" satisfies
the spec's candidate rule (all four tests, via "at least half of its words
are capitalized": 1 of 1), and it is the first line of its page, yet
`detect_headings` emits nothing: the code demands at least
`max 2 (words/2)` capitalized words, so one- or two-word title-case lines
are never headings. -/
theorem C8_counterexample :
    pageLines ("Hello".toList) = [("Hello".toList)] ∧
    specHeadingCandidate ("Hello".toList) = true ∧
    detect_headings [(1, "Hello".toList)] = [] := by
  refine ⟨by decide, by decide, by decide⟩

/-- The amended per-line rule: the code's candidate test, written out. -/
def amendedHeadingCond (ln : Str) : Bool :=
  ln.length ≤ 60 &&
  ln.any isAsciiAlphaCh &&
  !(!ln.isEmpty && ln.all isAsciiDigitCh) &&
  ((pyIsUpper ln && 6 ≤ ln.length) ||
   (max 2 ((splitWS ln).length / 2) ≤ capsCount ln) ||
   (ln = "ADME".toList || ln = "Forensic Toxicology".toList))

def introPage : Str := "INTRODUCTION\nSome lecture notes here about law.".toList

/-- C8 amended: a line of a single-line page is emitted by `detect_headings`
iff it passes the code's candidate test: length at most 60, has a letter,
not purely numeric, and (fully uppercase with length at least 6, or at
least `max 2 (floor (words/2))` capitalized words — not merely half — or
exactly one of the two hardcoded lines "ADME" / "Forensic Toxicology");
in particular a page whose first line is "INTRODUCTION" yields
`("INTRODUCTION", page)`. -/
theorem C8_amended_heading_rule :
    (∀ (pg : ℕ) (ln : Str),
      splitLines (clean_text ln) = [ln] → pyStrip ln = ln →
      detect_headings [(pg, ln)] =
        if isHeadingCandidate ln then [(ln, pg)] else []) ∧
    (∀ ln : Str, isHeadingCandidate ln = amendedHeadingCond ln) ∧
    (∀ pg : ℕ, detect_headings [(pg, introPage)] = [("INTRODUCTION".toList, pg)]) := by
  refine ⟨?_, fun ln => rfl, fun pg => ?_⟩
  · intro pg ln h1 h2
    by_cases he : ln = []
    · exact absurd h1 (by subst he; decide)
    · have hl2 : pageLines ln = [ln] := by
        unfold pageLines
        rw [h1, List.map_cons, List.map_nil, h2,
          List.filter_cons_of_pos (by simpa using he)]
        rfl
      unfold detect_headings hdPhase1
      simp only [List.foldl_cons, List.foldl_nil, hl2]
      by_cases hc : isHeadingCandidate ln = true
      · rw [if_pos hc]
        unfold hdStep
        rw [if_pos (by simp [hc])]
        rfl
      · rw [if_neg hc]
        unfold hdStep
        rw [if_neg (by simp [hc])]
        rfl
  · rfl

def optIsWord : Option Char → Bool
  | some c => isWordCh c
  | none => false

/-- fuel-driven scanner for `re.sub(rf"\b{w}\b", rep, s, flags=re.I)` with a
literal word `w` (lowercase letters/spaces): scan left to right, replace
every non-overlapping whole-word occurrence, keep matching against the
original text (`prev` is the original previous character). -/
def subWordF (w rep : Str) : ℕ → Option Char → Str → Str
  | 0, _, l => l
  | fuel + 1, _, [] => []
  | fuel + 1, prev, c :: rest =>
    if !w.isEmpty &&
       (optIsWord prev != isWordCh c) &&
       w.isPrefixOf (lowerStr ((c :: rest).take w.length)) &&
       (optIsWord (((c :: rest).take w.length).reverse.head?) !=
         optIsWord ((c :: rest)[w.length]?)) then
      rep ++ subWordF w rep fuel (((c :: rest).take w.length).reverse.head?)
        ((c :: rest).drop w.length)
    else c :: subWordF w rep fuel (some c) rest

def subWord (w rep s : Str) : Str := subWordF w rep s.length none s

/-- the five case-insensitive whole-word substitutions of
`simplify_sentences`, in source order. -/
def applySubs (s : Str) : Str :=
  subWord ("utilize".toList) ("use".toList)
    (subWord ("approximately".toList) ("about".toList)
      (subWord ("in addition".toList) ("also".toList)
        (subWord ("however".toList) ("but".toList)
          (subWord ("therefore".toList) ("so".toList) s))))

/-- state of the scanner for `re.sub(r",\s+(which|that)\s+", ". ", x, re.I)`.
Buffers hold the chars consumed by the current match attempt, reversed. -/
inductive CState where
  | idle : CState
  | comma : CState
  | ws1 : Str → CState
  | word : Str → Char → Str → CState
  | afterW : Str → CState
  | ws2 : Str → CState
  deriving DecidableEq

def cFlush : CState → Str
  | .idle => []
  | .comma => [',']
  | .ws1 b => b.reverse
  | .word b _ _ => b.reverse
  | .afterW b => b.reverse
  | .ws2 b => b.reverse

/-- the scanner itself.  A failed attempt flushes its buffer and reprocesses
the failing character from scratch (the buffer cannot contain a later match
start: its only comma is the attempt's own first character). -/
def clauseGo : CState → Str → Str
  | st, [] =>
    match st with
    | .ws2 _ => ['.', ' ']
    | st2 => cFlush st2
  | st, c :: rest =>
    match st with
    | .idle =>
      if c = ',' then clauseGo .comma rest
      else c :: clauseGo .idle rest
    | .comma =>
      if isPyWS c then clauseGo (.ws1 [c, ',']) rest
      else if c = ',' then ',' :: clauseGo .comma rest
      else ',' :: c :: clauseGo .idle rest
    | .ws1 b =>
      if isPyWS c then clauseGo (.ws1 (c :: b)) rest
      else if toLowerCh c = 'w' then clauseGo (.word (c :: b) 'h' ("ich".toList)) rest
      else if toLowerCh c = 't' then clauseGo (.word (c :: b) 'h' ("at".toList)) rest
      else if c = ',' then b.reverse ++ clauseGo .comma rest
      else b.reverse ++ (c :: clauseGo .idle rest)
    | .word b r rs =>
      if toLowerCh c = r then
        match rs with
        | [] => clauseGo (.afterW (c :: b)) rest
        | r2 :: rs2 => clauseGo (.word (c :: b) r2 rs2) rest
      else if c = ',' then b.reverse ++ clauseGo .comma rest
      else b.reverse ++ (c :: clauseGo .idle rest)
    | .afterW b =>
      if isPyWS c then clauseGo (.ws2 (c :: b)) rest
      else if c = ',' then b.reverse ++ clauseGo .comma rest
      else b.reverse ++ (c :: clauseGo .idle rest)
    | .ws2 b =>
      if isPyWS c then clauseGo (.ws2 (c :: b)) rest
      else if c = ',' then '.' :: ' ' :: clauseGo .comma rest
      else '.' :: ' ' :: (c :: clauseGo .idle rest)

def clauseSub (s : Str) : Str := clauseGo .idle s

/-- one sentence of `simplify_sentences`: the five substitutions, then the
clause-break substitution when longer than 180 characters, then strip. -/
def simplifyOne (s : Str) : Str :=
  pyStrip (if 180 < (applySubs s).length then clauseSub (applySubs s) else applySubs s)

/-- `simplify_sentences` from src/core.py. -/
def simplify_sentences (sentences : List Str) : List Str :=
  sentences.map simplifyOne

theorem clauseGo_idle_append (xs : Str) (h : ∀ x ∈ xs, x ≠ ',') (ys : Str) :
    clauseGo .idle (xs ++ ys) = xs ++ clauseGo .idle ys := by
  induction xs with
  | nil => rfl
  | cons c t ih =>
    rw [List.cons_append, clauseGo]
    rw [if_neg (h c (List.mem_cons_self c t))]
    rw [ih (fun x hx => h x (List.mem_cons_of_mem c hx))]
    rfl

/-- Stepping the clause scanner through
`", which " ++ b ++ ", that " ++ c` with comma-free `b` and `c` that start
with non-whitespace characters: both clause breaks are replaced. -/
theorem clauseGo_two_breaks (b1 c1 : Str) (b0 c0 : Char)
    (hb1 : ∀ x ∈ b1, x ≠ ',') (hc1 : ∀ x ∈ c1, x ≠ ',')
    (hb0c : b0 ≠ ',') (hc0c : c0 ≠ ',')
    (hb0w : isPyWS b0 = false) (hc0w : isPyWS c0 = false) :
    clauseGo CState.idle
      ((", which ".toList) ++ ((b0 :: b1) ++ ((", that ".toList) ++ (c0 :: c1)))) =
      ('.' :: ' ' :: b0 :: b1) ++ ('.' :: ' ' :: c0 :: c1) := by
  have e1 : (", which ".toList) = [',', ' ', 'w', 'h', 'i', 'c', 'h', ' '] := rfl
  have e2 : (", that ".toList) = [',', ' ', 't', 'h', 'a', 't', ' '] := rfl
  rw [e1, e2]
  simp only [List.cons_append, List.nil_append]
  have p1 : isPyWS ' ' = true := rfl
  have p2 : isPyWS 'w' = false := rfl
  have p3 : isPyWS 'h' = false := rfl
  have p4 : isPyWS 'i' = false := rfl
  have p5 : isPyWS 'c' = false := rfl
  have p6 : isPyWS 't' = false := rfl
  have p7 : isPyWS 'a' = false := rfl
  have q1 : toLowerCh 'w' = 'w' := rfl
  have q2 : toLowerCh 'h' = 'h' := rfl
  have q3 : toLowerCh 'i' = 'i' := rfl
  have q4 : toLowerCh 'c' = 'c' := rfl
  have q5 : toLowerCh 't' = 't' := rfl
  have q6 : toLowerCh 'a' = 'a' := rfl
  simp [clauseGo, p1, p2, p3, p4, p5, p6, p7, q1, q2, q3, q4, q5, q6,
    hb0w, hb0c, hc0w, hc0c,
    clauseGo_idle_append b1 hb1, clauseGo_idle_append c1 hc1]
  have h0 : clauseGo CState.idle ([] : Str) = [] := rfl
  simpa [h0] using clauseGo_idle_append c1 hc1 []

def c9Sent : Str := ("The defendant argued the contract was void because the other party failed to disclose material facts, which the court found persuasive in the early hearings, that ruling was later overturned on appeal by the judges.").toList

def c9CodeOut : Str := ("The defendant argued the contract was void because the other party failed to disclose material facts. the court found persuasive in the early hearings. ruling was later overturned on appeal by the judges.").toList

def c9FirstOnly : Str := ("The defendant argued the contract was void because the other party failed to disclose material facts. the court found persuasive in the early hearings, that ruling was later overturned on appeal by the judges.").toList

set_option maxRecDepth 16000 in
/-- C9 counterexample: `c9Sent` is longer than 180 characters (and untouched
by the five word substitutions) and contains two clause breaks, one
`, which ` and one `, that `.  The code replaces BOTH (its `re.sub` has no
count argument), producing `c9CodeOut`, not the claim's predicted
`c9FirstOnly` where only the first break is replaced and the later one is
left unchanged. -/
theorem C9_counterexample :
    180 < (applySubs c9Sent).length ∧
    simplify_sentences [c9Sent] = [c9CodeOut] ∧
    c9CodeOut ≠ c9FirstOnly := by
  refine ⟨by decide, by decide, by decide⟩

/-- C9 amended: for a sentence longer than 180 characters after the five
word substitutions, EVERY non-overlapping `, which `/`, that ` clause break
is replaced with `. `, not only the first (shown here for the generic
two-break shape `a ++ ", which " ++ b ++ ", that " ++ c` with comma-free
`a`, `b`, `c` and `b`, `c` starting with non-whitespace); sentences of at
most 180 characters after the substitutions get no clause-break
replacement. -/
theorem C9_amended_every_break_replaced :
    (∀ (a b1 c1 : Str) (b0 c0 : Char),
      (∀ x ∈ a, x ≠ ',') → (∀ x ∈ b0 :: b1, x ≠ ',') →
      (∀ x ∈ c0 :: c1, x ≠ ',') →
      isPyWS b0 = false → isPyWS c0 = false →
      applySubs (a ++ (", which ".toList) ++ (b0 :: b1) ++
        (", that ".toList) ++ (c0 :: c1)) =
        a ++ (", which ".toList) ++ (b0 :: b1) ++
          (", that ".toList) ++ (c0 :: c1) →
      180 < (a ++ (", which ".toList) ++ (b0 :: b1) ++
        (", that ".toList) ++ (c0 :: c1)).length →
      simplify_sentences [a ++ (", which ".toList) ++ (b0 :: b1) ++
        (", that ".toList) ++ (c0 :: c1)] =
        [pyStrip (a ++ ('.' :: ' ' :: b0 :: b1) ++ ('.' :: ' ' :: c0 :: c1))]) ∧
    (∀ s : Str, applySubs s = s → s.length ≤ 180 →
      simplify_sentences [s] = [pyStrip s]) := by
  constructor
  · intro a b1 c1 b0 c0 ha hb hc hb0w hc0w hsubs hlen
    have hb0c : b0 ≠ ',' := hb b0 (List.mem_cons_self b0 b1)
    have hc0c : c0 ≠ ',' := hc c0 (List.mem_cons_self c0 c1)
    have hb1 : ∀ x ∈ b1, x ≠ ',' := fun x hx => hb x (List.mem_cons_of_mem b0 hx)
    have hc1 : ∀ x ∈ c1, x ≠ ',' := fun x hx => hc x (List.mem_cons_of_mem c0 hx)
    unfold simplify_sentences simplifyOne
    rw [List.map_cons, List.map_nil, hsubs, if_pos hlen]
    unfold clauseSub
    have hassoc : a ++ (", which ".toList) ++ (b0 :: b1) ++
        (", that ".toList) ++ (c0 :: c1) =
        a ++ ((", which ".toList) ++ ((b0 :: b1) ++
          ((", that ".toList) ++ (c0 :: c1)))) := by
      simp [List.append_assoc]
    rw [hassoc, clauseGo_idle_append a ha,
      clauseGo_two_breaks b1 c1 b0 c0 hb1 hc1 hb0c hc0c hb0w hc0w]
    congr 2
    simp [List.append_assoc]
  · intro s hsubs hlen
    unfold simplify_sentences simplifyOne
    rw [List.map_cons, List.map_nil, hsubs, if_neg (by omega)]

def c9wA : Str := ("In the long judgment the panel explained the principle and cited many earlier cases from several jurisdictions before reaching the final position").toList

def c9wB1 : Str := ("he parties had accepted without protest").toList

def c9wC1 : Str := ("ettled the dispute for good.").toList

set_option maxRecDepth 16000 in
theorem C9_amended_every_break_replaced_witness :
    simplify_sentences [c9wA ++ (", which ".toList) ++ ('t' :: c9wB1) ++
        (", that ".toList) ++ ('s' :: c9wC1)] =
      [pyStrip (c9wA ++ ('.' :: ' ' :: 't' :: c9wB1) ++ ('.' :: ' ' :: 's' :: c9wC1))] ∧
    simplify_sentences [("Short, which one.").toList] =
      [pyStrip (("Short, which one.").toList)] :=
  ⟨C9_amended_every_break_replaced.1 c9wA c9wB1 c9wC1 't' 's' (by decide)
      (by decide) (by decide) (by decide) (by decide) (by decide) (by decide),
    C9_amended_every_break_replaced.2 _ (by decide) (by decide)⟩

theorem C8_amended_heading_rule_witness :
    detect_headings [(2, ("SUMMARY").toList)] =
      (if isHeadingCandidate (("SUMMARY").toList) then [(("SUMMARY").toList, 2)]
       else []) ∧
    detect_headings [(3, introPage)] = [(("INTRODUCTION").toList, 3)] :=
  ⟨C8_amended_heading_rule.1 2 (("SUMMARY").toList) (by decide) (by decide),
    C8_amended_heading_rule.2.2 3⟩
